import Mathlib

/-!
Verification of the greek_processor repository against its specification.

Shallow embedding of the relevant program parts:
* `OptionChainService.classify_trade` (src/option_chain.py): the five-step
  trade classifier, embedded step by step with an early-return `Option.orElse`
  chain; prices are rationals, sizes are integers.
* `StreamManager.classify_trade` and `StreamManager.get_quote_context`
  (src/stream_manager.py): the quote-context classifier.  An absent or empty
  quote dict is modelled as `none`; stream quotes that are present carry both
  a bid and an ask field.
* `option_greeks.py`: the straight-SVI functions, the butterfly and calendar
  arbitrage penalties, the duplicate-strike aggregation of `get_svi_slice`
  and the guard structure of `fit_svi_slice`.  The numeric optimizer core
  (scipy `minimize`) is abstracted as a function parameter.
* `volatility_surface.py`: the Black-Scholes pricing function, the bisection
  implied-vol solver (`scipy.optimize.bisect` semantics with its default
  `xtol`, `rtol` and `maxiter`) and the quote-admission logic of
  `update_quote`.
-/

namespace OptionChainService

/-- Step 1 of `classify_trade` (option_chain.py lines 86-90): exact quote
matches with volume change. -/
def classify_step1 (trade_price bid ask : ℚ)
    (bid_size ask_size next_bid_size next_ask_size : ℤ) : Option String :=
  if trade_price = ask ∧ ask_size > next_ask_size then some "BUY"
  else if trade_price = bid ∧ bid_size > next_bid_size then some "SELL"
  else none

/-- Step 2 of `classify_trade` (lines 92-96): quote movement detection. -/
def classify_step2 (bid ask next_bid next_ask : ℚ) : Option String :=
  if next_ask < ask ∧ next_bid = bid then some "BUY"
  else if next_bid > bid ∧ next_ask = ask then some "SELL"
  else none

/-- Step 3 of `classify_trade` (lines 98-126): hidden order logic for trades
strictly inside the spread. -/
def classify_step3 (trade_price bid ask next_bid next_ask : ℚ)
    (bid_size ask_size next_bid_size next_ask_size : ℤ) : Option String :=
  let spread := ask - bid
  let relative_price := if spread > 0 then (trade_price - bid) / spread else 0.5
  if bid < trade_price ∧ trade_price < ask then
    if relative_price > 0.9 then some "BUY"
    else if relative_price < 0.1 then some "SELL"
    else if next_ask_size < ask_size ∧ next_bid_size = bid_size then some "BUY"
    else if next_bid_size < bid_size ∧ next_ask_size = ask_size then some "SELL"
    else if next_ask < ask then some "BUY"
    else if next_bid > bid then some "SELL"
    else if relative_price > 0.7 then some "BUY"
    else if relative_price < 0.3 then some "SELL"
    else none
  else none

/-- Step 4 of `classify_trade` (lines 128-132): trades outside the quotes. -/
def classify_step4 (trade_price bid ask : ℚ) : Option String :=
  if trade_price > ask then some "BUY"
  else if trade_price < bid then some "SELL"
  else none

/-- Step 5 of `classify_trade` (lines 134-140): tick test on midpoints. -/
def classify_step5 (bid ask next_bid next_ask : ℚ) : Option String :=
  let mid_price := (bid + ask) / 2
  let next_mid_price := (next_bid + next_ask) / 2
  if next_mid_price > mid_price then some "BUY"
  else if next_mid_price < mid_price then some "SELL"
  else none

/-- `OptionChainService.classify_trade` (option_chain.py lines 82-142): the
early-return chain of the five steps, with default `UNKNOWN`. -/
def classify_trade (trade_price bid ask next_bid next_ask : ℚ)
    (bid_size ask_size next_bid_size next_ask_size : ℤ) : String :=
  (((((classify_step1 trade_price bid ask bid_size ask_size next_bid_size next_ask_size).orElse
      (fun _ => classify_step2 bid ask next_bid next_ask)).orElse
      (fun _ => classify_step3 trade_price bid ask next_bid next_ask
          bid_size ask_size next_bid_size next_ask_size)).orElse
      (fun _ => classify_step4 trade_price bid ask)).orElse
      (fun _ => classify_step5 bid ask next_bid next_ask)).getD "UNKNOWN"

end OptionChainService

namespace StreamManager

/-- A non-empty quote dict from the quote stream (stream_manager.py): stream
quotes carry both a bid and an ask price.  An absent or empty dict is
modelled as `none : Option SMQuote`. -/
structure SMQuote where
  bid : ℚ
  ask : ℚ
deriving DecidableEq

/-- `StreamManager.get_quote_context` (stream_manager.py lines 57-100):
bracket search for the quotes before and after a trade; returns the pair
`({}, {})`, modelled `(none, none)`, when no quote history exists. -/
def get_quote_context (history : List (ℚ × SMQuote)) (trade_time : ℚ) :
    Option SMQuote × Option SMQuote :=
  match history.mergeSort (fun a b => a.1 ≤ b.1) with
  | [] => (none, none)
  | [q] => (some q.2, some q.2)
  | q₀ :: q₁ :: rest =>
    let qs := q₀ :: q₁ :: rest
    let prev_quote :=
      match qs.reverse.find? (fun p => p.1 ≤ trade_time) with
      | some p => p.2
      | none => q₀.2
    let next_quote :=
      match qs.find? (fun p => trade_time < p.1) with
      | some p => p.2
      | none => (qs.getLast (by simp)).2
    (some prev_quote, some next_quote)

/-- `StreamManager.classify_trade` (stream_manager.py lines 102-123). -/
def classify_trade (price : ℚ) (size : ℤ)
    (prev_quote next_quote : Option SMQuote) : String :=
  match prev_quote, next_quote with
  | none, none => "UNKNOWN"
  | prev_q, next_q =>
    let quote := (prev_q.orElse (fun _ => next_q)).getD ⟨0, 0⟩
    let bid := quote.bid
    let ask := quote.ask
    if price ≤ bid then "SELL"
    else if price ≥ ask then "BUY"
    else
      let mid_price := if ask > bid then (bid + ask) / 2 else price
      if price ≥ mid_price then "BUY" else "SELL"

end StreamManager

namespace OptionGreeks

/-- Parameter vector `chi = [m1, m2, q1, q2, c]` of the straight-SVI
parametrisation (option_greeks.py). -/
abbrev SVIChi := ℝ × ℝ × ℝ × ℝ × ℝ

/-- `straight_svi` (option_greeks.py lines 16-20). -/
noncomputable def straight_svi (x m1 m2 q1 q2 c : ℝ) : ℝ :=
  ((m1 + m2)*x + q1 + q2 +
      Real.sqrt (((m1 + m2)*x + q1 + q2)^2 -
        4*(m1*m2*x^2 + (m1*q2 + m2*q1)*x + q1*q2 - c)))/2

/-- `straight_svi_prime` (option_greeks.py lines 22-26). -/
noncomputable def straight_svi_prime (x m1 m2 q1 q2 c : ℝ) : ℝ :=
  let H := Real.sqrt (((m1 + m2)*x + q1 + q2)^2 -
    4*(m1*m2*x^2 + (m1*q2 + m2*q1)*x + q1*q2 - c))
  ((m1 + m2) + ((m1 + m2)*((m1 + m2)*x + q1 + q2) -
      4*m1*m2*x - 2*(m1*q2 + m2*q1))/H)/2

/-- `straight_svi_double_prime` (option_greeks.py lines 28-33). -/
noncomputable def straight_svi_double_prime (x m1 m2 q1 q2 c : ℝ) : ℝ :=
  let H := Real.sqrt (((m1 + m2)*x + q1 + q2)^2 -
    4*(m1*m2*x^2 + (m1*q2 + m2*q1)*x + q1*q2 - c))
  let A := (2*(m1 + m2)^2 - 8*m1*m2)/H
  let B := (2*(m1 + m2)*((m1 + m2)*x + q1 + q2) - 8*m1*m2*x -
    4*(m1*q2 + m2*q1))^2/H^3/2
  (A - B)/4

/-- Total variance of a slice at log-moneyness `k`: `straight_svi(k, *chi)`. -/
noncomputable def svi_w (chi : SVIChi) (k : ℝ) : ℝ :=
  match chi with
  | (m1, m2, q1, q2, c) => straight_svi k m1 m2 q1 q2 c

/-- The density term `g` of `butterfly_arbitrage` (option_greeks.py line 41). -/
noncomputable def svi_g (chi : SVIChi) (k : ℝ) : ℝ :=
  match chi with
  | (m1, m2, q1, q2, c) =>
    let w := straight_svi k m1 m2 q1 q2 c
    let wp := straight_svi_prime k m1 m2 q1 q2 c
    let wpp := straight_svi_double_prime k m1 m2 q1 q2 c
    (1 - k*wp/(2*w))^2 - wp^2/4*(1/w + 1/4) + wpp/2

/-- `butterfly_arbitrage` (option_greeks.py lines 35-42). -/
noncomputable def butterfly_arbitrage (chi : SVIChi) (k : ℝ) : ℝ :=
  -min 0 (svi_g chi k)

/-- `calendar_arbitrage` (option_greeks.py lines 44-48). -/
noncomputable def calendar_arbitrage (chi1 chi2 : SVIChi) (k : ℝ) : ℝ :=
  let w1 := svi_w chi1 k
  let w2 := svi_w chi2 k
  max 0 (w2 - w1)

/-- `SVIParams` (option_greeks.py lines 8-14): raw SVI parameters. -/
structure SVIParams where
  a : ℝ
  b : ℝ
  rho : ℝ
  m : ℝ
  sigma : ℝ

/-- One update of the `unique_trades` dict of `get_svi_slice`
(option_greeks.py lines 147-152): append `iv` to the entry of `strike`,
or add a new entry at the end (Python dict insertion order). -/
def addObs : List (ℚ × List ℚ) → ℚ → ℚ → List (ℚ × List ℚ)
  | [], k, iv => [(k, [iv])]
  | (k₀, vs) :: rest, k, iv =>
    if k₀ = k then (k₀, vs ++ [iv]) :: rest
    else (k₀, vs) :: addObs rest k iv

/-- The `unique_trades` dict after the loop of `get_svi_slice`
(lines 147-152), as an association list in insertion order. -/
def unique_trades (trades : List (ℚ × ℚ × ℚ)) : List (ℚ × List ℚ) :=
  trades.foldl (fun m t => addObs m t.1 t.2.1) []

/-- `sorted(unique_trades.items())` (line 156). -/
def sorted_items (trades : List (ℚ × ℚ × ℚ)) : List (ℚ × List ℚ) :=
  (unique_trades trades).mergeSort (fun a b => a.1 ≤ b.1)

/-- `np.mean` of a list, as exact arithmetic: sum divided by length. -/
def list_mean (l : List ℚ) : ℚ := l.sum / l.length

/-- The `strikes` list built by `get_svi_slice` (lines 154-158). -/
def svi_strikes (trades : List (ℚ × ℚ × ℚ)) : List ℚ :=
  (sorted_items trades).map (fun p => p.1)

/-- The `ivs` list built by `get_svi_slice` (lines 154-158): the mean of the
observations at each distinct strike. -/
def svi_ivs (trades : List (ℚ × ℚ × ℚ)) : List ℚ :=
  (sorted_items trades).map (fun p => list_mean p.2)

/-- `fit_svi_slice` (option_greeks.py lines 50-139): the guard on the number
of strikes (line 61), with the numeric optimizer core (lines 64-139,
scipy `minimize` over the SVI residuals) abstracted as `optCore`. -/
def fit_svi_slice (optCore : List ℚ → List ℚ → ℚ → Option SVIParams)
    (strikes ivs : List ℚ) (spot : ℚ) : Option SVIParams :=
  if strikes.length < 5 then none
  else optCore strikes ivs spot

/-- `get_svi_slice` (option_greeks.py lines 141-160): length guard,
duplicate-strike aggregation, then the fit. -/
def get_svi_slice (optCore : List ℚ → List ℚ → ℚ → Option SVIParams)
    (trades : List (ℚ × ℚ × ℚ)) (spot : ℚ) : Option SVIParams :=
  if trades.length < 5 then none
  else fit_svi_slice optCore (svi_strikes trades) (svi_ivs trades) spot

/-- The initial guess handed to `minimize` by `fit_svi_slice`
(option_greeks.py lines 101-108).  It is the literal constant
`[-0.2, 0.2, 0.1, 0.1, 0.01]`: the binned means `xm, vm` computed at
lines 68-81 are never used. -/
noncomputable def fit_svi_init_guess (strikes ivs : List ℝ) (spot : ℝ) : List ℝ :=
  [-0.2, 0.2, 0.1, 0.1, 0.01]

/-- Modelled from the spec: the median used by the spec's description of
duplicate-strike pre-aggregation (the middle element of the sorted
observation list; the code itself has no median anywhere). -/
def spec_median (l : List ℚ) : ℚ :=
  (l.mergeSort (fun a b => a ≤ b)).getD (l.length / 2) 0

/-- Keys of the association list. -/
def obsKeys (m : List (ℚ × List ℚ)) : List ℚ := m.map (fun p => p.1)

/-- Observation list stored at key `k` (empty if `k` is absent). -/
def lookupObs (m : List (ℚ × List ℚ)) (k : ℚ) : List ℚ :=
  ((m.find? (fun p => p.1 = k)).map (fun p => p.2)).getD []

theorem obsKeys_cons (p : ℚ × List ℚ) (m : List (ℚ × List ℚ)) :
    obsKeys (p :: m) = p.1 :: obsKeys m := rfl

theorem obsKeys_addObs (m : List (ℚ × List ℚ)) (k iv : ℚ) :
    obsKeys (addObs m k iv) =
      if k ∈ obsKeys m then obsKeys m else obsKeys m ++ [k] := by
  induction m with
  | nil => simp [addObs, obsKeys]
  | cons p rest ih =>
    obtain ⟨k₀, vs⟩ := p
    by_cases h : k₀ = k
    · subst h
      simp [addObs, obsKeys]
    · rw [addObs, if_neg h, obsKeys_cons, obsKeys_cons, ih]
      by_cases hm : k ∈ obsKeys rest
      · rw [if_pos hm, if_pos (List.mem_cons.mpr (Or.inr hm))]
      · have hk : ¬ k ∈ (k₀, vs).1 :: obsKeys rest := by
          rw [List.mem_cons]
          rintro (hc | hc)
          · exact h hc.symm
          · exact hm hc
        rw [if_neg hm, if_neg hk, List.cons_append]

theorem obsKeys_nodup_addObs (m : List (ℚ × List ℚ)) (k iv : ℚ)
    (h : (obsKeys m).Nodup) : (obsKeys (addObs m k iv)).Nodup := by
  rw [obsKeys_addObs]
  by_cases hm : k ∈ obsKeys m
  · simpa [hm] using h
  · simp only [hm, if_false]
    exact List.Nodup.append h (List.nodup_singleton k)
      (by simpa [List.disjoint_singleton] using hm)

theorem obsKeys_toFinset_addObs (m : List (ℚ × List ℚ)) (k iv : ℚ) :
    (obsKeys (addObs m k iv)).toFinset = insert k (obsKeys m).toFinset := by
  rw [obsKeys_addObs]
  by_cases hm : k ∈ obsKeys m
  · rw [if_pos hm]
    exact (Finset.insert_eq_self.mpr (List.mem_toFinset.mpr hm)).symm
  · rw [if_neg hm, List.toFinset_append]
    simp only [List.toFinset_cons, List.toFinset_nil, insert_emptyc_eq]
    rw [Finset.insert_eq, Finset.union_comm]

theorem unique_trades_aux_nodup (l : List (ℚ × ℚ × ℚ)) (m : List (ℚ × List ℚ))
    (h : (obsKeys m).Nodup) :
    (obsKeys (l.foldl (fun m t => addObs m t.1 t.2.1) m)).Nodup := by
  induction l generalizing m with
  | nil => simpa using h
  | cons t rest ih =>
    simp only [List.foldl_cons]
    exact ih _ (obsKeys_nodup_addObs _ _ _ h)

theorem unique_trades_aux_toFinset (l : List (ℚ × ℚ × ℚ)) (m : List (ℚ × List ℚ)) :
    (obsKeys (l.foldl (fun m t => addObs m t.1 t.2.1) m)).toFinset =
      (obsKeys m).toFinset ∪ (l.map (fun t => t.1)).toFinset := by
  induction l generalizing m with
  | nil => simp
  | cons t rest ih =>
    simp only [List.foldl_cons, List.map_cons, List.toFinset_cons]
    rw [ih, obsKeys_toFinset_addObs]
    ext x
    simp only [Finset.mem_union, Finset.mem_insert]
    tauto

theorem unique_trades_nodup (trades : List (ℚ × ℚ × ℚ)) :
    (obsKeys (unique_trades trades)).Nodup :=
  unique_trades_aux_nodup trades [] (by simp [obsKeys])

/-- The number of aggregated entries equals the number of distinct strikes. -/
theorem unique_trades_length (trades : List (ℚ × ℚ × ℚ)) :
    (unique_trades trades).length = (trades.map (fun t => t.1)).toFinset.card := by
  have h1 : (obsKeys (unique_trades trades)).toFinset =
      (trades.map (fun t => t.1)).toFinset := by
    rw [unique_trades, unique_trades_aux_toFinset]
    simp [obsKeys]
  have h2 := List.toFinset_card_of_nodup (unique_trades_nodup trades)
  rw [← h1, h2, obsKeys, List.length_map]

theorem svi_strikes_length (trades : List (ℚ × ℚ × ℚ)) :
    (svi_strikes trades).length = (trades.map (fun t => t.1)).toFinset.card := by
  rw [svi_strikes, List.length_map, sorted_items, List.length_mergeSort,
    unique_trades_length]

theorem lookupObs_nil (k : ℚ) : lookupObs [] k = [] := rfl

theorem lookupObs_cons (k₁ : ℚ) (vs : List ℚ) (m : List (ℚ × List ℚ)) (k₀ : ℚ) :
    lookupObs ((k₁, vs) :: m) k₀ = if k₁ = k₀ then vs else lookupObs m k₀ := by
  by_cases h : k₁ = k₀
  · rw [if_pos h, lookupObs, List.find?_cons_of_pos _ (by simp [h])]
    rfl
  · rw [if_neg h, lookupObs, List.find?_cons_of_neg _ (by simp [h]), lookupObs]

theorem lookupObs_addObs (m : List (ℚ × List ℚ)) (k k₀ iv : ℚ) :
    lookupObs (addObs m k iv) k₀ =
      if k₀ = k then lookupObs m k ++ [iv] else lookupObs m k₀ := by
  induction m with
  | nil =>
    by_cases h : k₀ = k
    · subst h
      rw [show addObs [] k₀ iv = [(k₀, [iv])] from rfl, lookupObs_cons,
        if_pos rfl, if_pos rfl, lookupObs_nil, List.nil_append]
    · have hk : ¬ k = k₀ := fun hc => h (Eq.symm hc)
      rw [show addObs [] k iv = [(k, [iv])] from rfl, lookupObs_cons,
        if_neg hk, if_neg h, lookupObs_nil]
  | cons p rest ih =>
    obtain ⟨k₁, vs⟩ := p
    by_cases h1 : k₁ = k
    · subst h1
      rw [show addObs ((k₁, vs) :: rest) k₁ iv = (k₁, vs ++ [iv]) :: rest from
        by rw [addObs, if_pos rfl]]
      by_cases h0 : k₀ = k₁
      · subst h0
        rw [lookupObs_cons, if_pos rfl, if_pos rfl, lookupObs_cons, if_pos rfl]
      · have hk : ¬ k₁ = k₀ := fun hc => h0 (Eq.symm hc)
        rw [lookupObs_cons, if_neg hk, if_neg h0, lookupObs_cons, if_neg hk]
    · rw [show addObs ((k₁, vs) :: rest) k iv = (k₁, vs) :: addObs rest k iv from
        by rw [addObs, if_neg h1]]
      rw [lookupObs_cons]
      by_cases h0 : k₁ = k₀
      · subst h0
        have hk : ¬ k₁ = k := h1
        rw [if_pos rfl, if_neg (fun hc : k₁ = k => h1 hc), lookupObs_cons, if_pos rfl]
      · rw [if_neg h0, ih]
        by_cases h2 : k₀ = k
        · rw [if_pos h2, if_pos h2, lookupObs_cons, if_neg h1]
        · rw [if_neg h2, if_neg h2, lookupObs_cons, if_neg h0]

theorem lookupObs_foldl (l : List (ℚ × ℚ × ℚ)) (m : List (ℚ × List ℚ)) (k : ℚ) :
    lookupObs (l.foldl (fun m t => addObs m t.1 t.2.1) m) k =
      lookupObs m k ++ (l.filter (fun t => t.1 = k)).map (fun t => t.2.1) := by
  induction l generalizing m with
  | nil => simp
  | cons t rest ih =>
    obtain ⟨s, iv, z⟩ := t
    simp only [List.foldl_cons]
    rw [ih]
    by_cases h : s = k
    · subst h
      rw [List.filter_cons_of_pos (by simp)]
      rw [lookupObs_addObs, if_pos rfl]
      simp
    · rw [List.filter_cons_of_neg (by simp [h])]
      rw [lookupObs_addObs, if_neg (fun hc => h (Eq.symm hc))]

theorem lookupObs_of_mem (m : List (ℚ × List ℚ)) (p : ℚ × List ℚ)
    (hp : p ∈ m) (hnd : (obsKeys m).Nodup) : lookupObs m p.1 = p.2 := by
  induction m with
  | nil => cases hp
  | cons q rest ih =>
    obtain ⟨qk, qvs⟩ := q
    rcases List.mem_cons.mp hp with h | h
    · subst h
      rw [lookupObs_cons, if_pos rfl]
    · have hq : ¬ qk = p.1 := by
        intro hc
        have hmem : p.1 ∈ obsKeys rest := List.mem_map.mpr ⟨p, h, rfl⟩
        rw [obsKeys_cons] at hnd
        exact (List.nodup_cons.mp hnd).1 (by simpa [hc] using hmem)
      have hrest : (obsKeys rest).Nodup := by
        rw [obsKeys_cons] at hnd
        exact (List.nodup_cons.mp hnd).2
      rw [lookupObs_cons, if_neg hq]
      exact ih h hrest

/-- Every aggregated entry holds exactly the observations at its strike, in
input order. -/
theorem mem_unique_trades_obs (trades : List (ℚ × ℚ × ℚ)) (p : ℚ × List ℚ)
    (hp : p ∈ unique_trades trades) :
    p.2 = (trades.filter (fun t => t.1 = p.1)).map (fun t => t.2.1) := by
  have h1 := lookupObs_of_mem _ p hp (unique_trades_nodup trades)
  have h2 := lookupObs_foldl trades [] p.1
  rw [unique_trades] at h1
  rw [h1] at h2
  simpa [lookupObs] using h2

end OptionGreeks

namespace VolatilitySurface

open MeasureTheory

/-- Density of the standard normal distribution. -/
noncomputable def normPdf (x : ℝ) : ℝ :=
  Real.exp (-(x^2) / 2) / Real.sqrt (2 * Real.pi)

/-- `scipy.stats.norm.cdf`: the standard normal cumulative distribution
function. -/
noncomputable def normCdf (x : ℝ) : ℝ :=
  (∫ t in Set.Iic x, Real.exp (-(t^2) / 2)) / Real.sqrt (2 * Real.pi)

theorem gauss_integrable : Integrable (fun t : ℝ => Real.exp (-(t^2) / 2)) := by
  have h : (fun t : ℝ => Real.exp (-(t^2) / 2)) =
      fun t : ℝ => Real.exp (-(1/2 : ℝ) * t^2) := by
    funext t
    congr 1
    ring
  rw [h]
  exact integrable_exp_neg_mul_sq (by norm_num)

theorem gauss_continuous : Continuous (fun t : ℝ => Real.exp (-(t^2) / 2)) := by
  continuity

theorem normCdf_hasDerivAt (x : ℝ) : HasDerivAt normCdf (normPdf x) x := by
  have hint := gauss_integrable
  have key : normCdf = fun u =>
      ((∫ t in Set.Iic (0:ℝ), Real.exp (-(t^2) / 2)) +
        ∫ t in (0:ℝ)..u, Real.exp (-(t^2) / 2)) / Real.sqrt (2 * Real.pi) := by
    funext u
    rw [normCdf]
    congr 1
    have h : (∫ t in Set.Iic u, Real.exp (-(t^2) / 2)) -
        ∫ t in Set.Iic (0:ℝ), Real.exp (-(t^2) / 2) =
          ∫ t in (0:ℝ)..u, Real.exp (-(t^2) / 2) :=
      intervalIntegral.integral_Iic_sub_Iic hint.integrableOn hint.integrableOn
    linarith
  rw [key]
  have h1 : HasDerivAt (fun u => ∫ t in (0:ℝ)..u, Real.exp (-(t^2) / 2))
      (Real.exp (-(x^2) / 2)) x :=
    intervalIntegral.integral_hasDerivAt_right (hint.intervalIntegrable)
      (gauss_continuous.stronglyMeasurableAtFilter _ _)
      gauss_continuous.continuousAt
  exact (h1.const_add _).div_const _

theorem normPdf_pos (x : ℝ) : 0 < normPdf x :=
  div_pos (Real.exp_pos _) (Real.sqrt_pos.mpr (by positivity))

theorem normPdf_neg (x : ℝ) : normPdf (-x) = normPdf x := by
  rw [normPdf, normPdf, neg_sq]

/-- `d1` of `bs_price` (volatility_surface.py line 198). -/
noncomputable def bs_d1 (S K T r vol : ℝ) : ℝ :=
  (Real.log (S/K) + (r + 0.5*vol*vol)*T) / (vol * Real.sqrt T)

/-- `d2` of `bs_price` (volatility_surface.py line 199). -/
noncomputable def bs_d2 (S K T r vol : ℝ) : ℝ :=
  bs_d1 S K T r vol - vol * Real.sqrt T

/-- The inner `bs_price` of `black_scholes_implied_vol`
(volatility_surface.py lines 197-203). -/
noncomputable def bs_price (S K T r : ℝ) (is_call : Bool) (vol : ℝ) : ℝ :=
  if is_call then
    S * normCdf (bs_d1 S K T r vol) -
      K * Real.exp (-r*T) * normCdf (bs_d2 S K T r vol)
  else
    K * Real.exp (-r*T) * normCdf (-bs_d2 S K T r vol) -
      S * normCdf (-bs_d1 S K T r vol)

theorem bs_d1_hasDerivAt (S K T r : ℝ) {σ : ℝ} (hT : 0 < T) (hσ : 0 < σ) :
    HasDerivAt (fun v => bs_d1 S K T r v)
      (((σ*T) * (σ * Real.sqrt T) -
          (Real.log (S/K) + (r + 0.5*σ*σ)*T) * Real.sqrt T) /
        (σ * Real.sqrt T)^2) σ := by
  have hden : σ * Real.sqrt T ≠ 0 :=
    ne_of_gt (mul_pos hσ (Real.sqrt_pos.mpr hT))
  have hnum : HasDerivAt (fun v => Real.log (S/K) + (r + 0.5*v*v)*T) (σ*T) σ := by
    have h1 : HasDerivAt (fun v : ℝ => 0.5*v*v) (0.5*1*σ + 0.5*σ*1) σ :=
      ((hasDerivAt_id σ).const_mul (0.5 : ℝ)).mul (hasDerivAt_id σ)
    have h4 := ((h1.const_add r).mul_const T).const_add (Real.log (S/K))
    convert h4 using 1
    ring
  have hden_d : HasDerivAt (fun v : ℝ => v * Real.sqrt T) (Real.sqrt T) σ := by
    simpa using (hasDerivAt_id σ).mul_const (Real.sqrt T)
  have h := hnum.div hden_d hden
  exact h

theorem bs_pdf_identity (S K T r : ℝ) (hS : 0 < S) (hK : 0 < K) (hT : 0 < T)
    {σ : ℝ} (hσ : 0 < σ) :
    K * Real.exp (-r*T) * normPdf (bs_d2 S K T r σ) =
      S * normPdf (bs_d1 S K T r σ) := by
  have hst : Real.sqrt T ^ 2 = T := Real.sq_sqrt hT.le
  have hstpos : 0 < Real.sqrt T := Real.sqrt_pos.mpr hT
  have hne : σ * Real.sqrt T ≠ 0 := ne_of_gt (mul_pos hσ hstpos)
  have hd1N : σ * Real.sqrt T * bs_d1 S K T r σ =
      Real.log (S/K) + (r + 0.5*σ*σ)*T := by
    rw [bs_d1]
    field_simp
  have hsq : bs_d1 S K T r σ ^ 2 - bs_d2 S K T r σ ^ 2 =
      2*(Real.log (S/K) + r*T) := by
    rw [bs_d2]
    linear_combination 2 * hd1N - σ^2 * hst
  have key : K * Real.exp (-r*T) * Real.exp (-(bs_d2 S K T r σ^2) / 2) =
      S * Real.exp (-(bs_d1 S K T r σ^2) / 2) := by
    have h1 : Real.exp (-(bs_d2 S K T r σ^2) / 2) =
        Real.exp (-(bs_d1 S K T r σ^2) / 2) *
          Real.exp (Real.log (S/K) + r*T) := by
      rw [← Real.exp_add]
      congr 1
      linarith [hsq]
    rw [h1, Real.exp_add, Real.exp_log (div_pos hS hK)]
    rw [show (-r*T) = -(r*T) by ring, Real.exp_neg]
    field_simp
    ring
  rw [normPdf, normPdf]
  linear_combination (1 / Real.sqrt (2 * Real.pi)) * key

theorem bs_price_hasDerivAt (S K T r : ℝ) (c : Bool) (hS : 0 < S) (hK : 0 < K)
    (hT : 0 < T) {σ : ℝ} (hσ : 0 < σ) :
    HasDerivAt (fun v => bs_price S K T r c v)
      (S * normPdf (bs_d1 S K T r σ) * Real.sqrt T) σ := by
  have hstpos : 0 < Real.sqrt T := Real.sqrt_pos.mpr hT
  obtain ⟨D, hd1⟩ : ∃ D, HasDerivAt (fun v => bs_d1 S K T r v) D σ :=
    ⟨_, bs_d1_hasDerivAt S K T r hT hσ⟩
  have hd2 : HasDerivAt (fun v => bs_d2 S K T r v) (D - Real.sqrt T) σ := by
    have h := hd1.sub ((hasDerivAt_id σ).mul_const (Real.sqrt T))
    simpa using h
  have hpdf := bs_pdf_identity S K T r hS hK hT hσ
  cases c with
  | true =>
    have hc1 : HasDerivAt (fun v => normCdf (bs_d1 S K T r v))
        (normPdf (bs_d1 S K T r σ) * D) σ := by
      have h := (normCdf_hasDerivAt (bs_d1 S K T r σ)).comp σ hd1
      simpa [Function.comp] using h
    have hc2 : HasDerivAt (fun v => normCdf (bs_d2 S K T r v))
        (normPdf (bs_d2 S K T r σ) * (D - Real.sqrt T)) σ := by
      have h := (normCdf_hasDerivAt (bs_d2 S K T r σ)).comp σ hd2
      simpa [Function.comp] using h
    have h := (hc1.const_mul S).sub (hc2.const_mul (K * Real.exp (-r*T)))
    have heq : (fun v => bs_price S K T r true v) =
        fun v => S * normCdf (bs_d1 S K T r v) -
          K * Real.exp (-r*T) * normCdf (bs_d2 S K T r v) := by
      funext v
      rw [bs_price, if_pos rfl]
    rw [heq]
    convert h using 1
    linear_combination (D - Real.sqrt T) * hpdf
  | false =>
    have hc1 : HasDerivAt (fun v => normCdf (-bs_d1 S K T r v))
        (normPdf (-bs_d1 S K T r σ) * (-D)) σ := by
      have h := (normCdf_hasDerivAt (-bs_d1 S K T r σ)).comp σ hd1.neg
      simpa [Function.comp] using h
    have hc2 : HasDerivAt (fun v => normCdf (-bs_d2 S K T r v))
        (normPdf (-bs_d2 S K T r σ) * (-(D - Real.sqrt T))) σ := by
      have h := (normCdf_hasDerivAt (-bs_d2 S K T r σ)).comp σ hd2.neg
      simpa [Function.comp] using h
    have h := (hc2.const_mul (K * Real.exp (-r*T))).sub (hc1.const_mul S)
    have heq : (fun v => bs_price S K T r false v) =
        fun v => K * Real.exp (-r*T) * normCdf (-bs_d2 S K T r v) -
          S * normCdf (-bs_d1 S K T r v) := by
      funext v
      rw [bs_price, if_neg (by simp)]
    rw [heq]
    convert h using 1
    rw [normPdf_neg, normPdf_neg]
    linear_combination (D - Real.sqrt T) * hpdf

/-- `bs_price` is strictly increasing in volatility on any positive
interval. -/
theorem bs_price_strictMonoOn (S K T r : ℝ) (c : Bool) (hS : 0 < S)
    (hK : 0 < K) (hT : 0 < T) {lo hi : ℝ} (hlo : 0 < lo) :
    StrictMonoOn (fun v => bs_price S K T r c v) (Set.Icc lo hi) := by
  apply strictMonoOn_of_deriv_pos (convex_Icc lo hi)
  · intro x hx
    have hx0 : 0 < x := lt_of_lt_of_le hlo hx.1
    exact (bs_price_hasDerivAt S K T r c hS hK hT hx0).continuousAt.continuousWithinAt
  · intro x hx
    rw [interior_Icc] at hx
    have hx0 : 0 < x := lt_trans hlo hx.1
    rw [(bs_price_hasDerivAt S K T r c hS hK hT hx0).deriv]
    exact mul_pos (mul_pos hS (normPdf_pos _)) (Real.sqrt_pos.mpr hT)

/-- The iteration of `scipy.optimize.bisect` (scipy `Zeros/bisect.c`): state
is the current left endpoint `xa` and the signed width `dm`; each step halves
`dm`, probes the midpoint `xm = xa + dm/2`, moves `xa` to `xm` when
`f(xm)*f(a₀) ≥ 0` (with `fa` the value at the original left endpoint), and
returns `xm` when `f(xm) = 0` or `|dm/2| < xtol + rtol*|xm|`; `none` models
the RuntimeError raised when `maxiter` iterations do not converge. -/
noncomputable def bisect_loop (f : ℝ → ℝ) (fa xtol rtol : ℝ) :
    ℕ → ℝ → ℝ → Option ℝ
  | 0, _, _ => none
  | n+1, xa, dm =>
    if f (xa + dm / 2) = 0 ∨ |dm / 2| < xtol + rtol * |xa + dm / 2| then
      some (xa + dm / 2)
    else
      bisect_loop f fa xtol rtol n
        (if 0 ≤ f (xa + dm / 2) * fa then xa + dm / 2 else xa) (dm / 2)

/-- `scipy.optimize.bisect(f, xa, xb)`: raises ValueError (modelled `none`)
when `f(xa)*f(xb) > 0`, returns an endpoint when it is an exact root, and
otherwise runs the bisection iteration. -/
noncomputable def scipy_bisect (f : ℝ → ℝ) (xa xb xtol rtol : ℝ)
    (maxiter : ℕ) : Option ℝ :=
  if 0 < f xa * f xb then none
  else if f xa = 0 then some xa
  else if f xb = 0 then some xb
  else bisect_loop f (f xa) xtol rtol maxiter xa (xb - xa)

/-- scipy default `xtol` of `bisect`. -/
noncomputable def bs_xtol : ℝ := 2e-12

/-- scipy default `rtol` of `bisect`: four times the double-precision machine
epsilon `2^(-52)`. -/
noncomputable def bs_rtol : ℝ := 4 * (2:ℝ)^(-(52:ℤ))

/-- `VolatilitySurface.black_scholes_implied_vol`
(volatility_surface.py lines 196-212): bisection of the pricing objective
over the bracket `[0.0001, 5.0]`; any solver exception is caught and turned
into `None`, modelled `none`. -/
noncomputable def black_scholes_implied_vol (S K T r price : ℝ)
    (is_call : Bool) : Option ℝ :=
  scipy_bisect (fun vol => bs_price S K T r is_call vol - price)
    0.0001 5.0 bs_xtol bs_rtol 100

theorem bisect_loop_mem (f : ℝ → ℝ) (fa xt rt : ℝ) {lo hi : ℝ} :
    ∀ (n : ℕ) (xa dm x : ℝ), 0 < dm → lo ≤ xa → xa + dm ≤ hi →
      bisect_loop f fa xt rt n xa dm = some x → lo < x ∧ x < hi := by
  intro n
  induction n with
  | zero => intro xa dm x _ _ _ h; exact absurd h (by simp [bisect_loop])
  | succ n ih =>
    intro xa dm x hdm hlo hhi h
    rw [bisect_loop] at h
    by_cases hret : f (xa + dm / 2) = 0 ∨ |dm / 2| < xt + rt * |xa + dm / 2|
    · rw [if_pos hret] at h
      have hx : x = xa + dm / 2 := (Option.some.injEq _ _ ▸ h).symm
      constructor
      · rw [hx]; linarith
      · rw [hx]; linarith
    · rw [if_neg hret] at h
      have hdm2 : 0 < dm / 2 := by linarith
      by_cases hside : 0 ≤ f (xa + dm / 2) * fa
      · rw [if_pos hside] at h
        exact ih (xa + dm / 2) (dm / 2) x hdm2 (by linarith) (by linarith) h
      · rw [if_neg hside] at h
        exact ih xa (dm / 2) x hdm2 hlo (by linarith) h

/-- Convergence of the bisection iteration: when `f` is strictly monotone on
`[lo, hi]` with an interior root `sigma`, and the current interval brackets
`sigma`, the loop returns a point within `xtol + rtol*hi` of `sigma`, given
enough iterations. -/
theorem bisect_loop_conv (f : ℝ → ℝ) (lo hi sigma xt rt : ℝ)
    (hmono : StrictMonoOn f (Set.Icc lo hi)) (hsig : f sigma = 0)
    (hlos : lo < sigma) (hshi : sigma < hi) (hlo0 : 0 ≤ lo)
    (hxt : 0 < xt) (hrt : 0 ≤ rt) :
    ∀ (n : ℕ) (xa dm : ℝ), 0 < dm → lo ≤ xa → xa + dm ≤ hi →
      xa ≤ sigma → sigma ≤ xa + dm → dm < xt * 2 ^ (n+1) →
      ∃ x, bisect_loop f (f lo) xt rt (n+1) xa dm = some x ∧
        |x - sigma| < xt + rt * hi := by
  have hsigm : sigma ∈ Set.Icc lo hi := ⟨hlos.le, hshi.le⟩
  have hflo : f lo < 0 := by
    have h := hmono (Set.mem_Icc.mpr ⟨le_refl lo, le_of_lt (lt_trans hlos hshi)⟩)
      hsigm hlos
    rw [hsig] at h
    exact h
  have hhi0 : 0 ≤ hi := le_of_lt (lt_of_le_of_lt hlo0 (lt_trans hlos hshi))
  have hfneg : ∀ y, y ∈ Set.Icc lo hi → y < sigma → f y < 0 := by
    intro y hy h
    have := hmono hy hsigm h
    rw [hsig] at this
    exact this
  have hfpos : ∀ y, y ∈ Set.Icc lo hi → sigma < y → 0 < f y := by
    intro y hy h
    have := hmono hsigm hy h
    rw [hsig] at this
    exact this
  intro n
  induction n with
  | zero =>
    intro xa dm hdm hloxa hxahi hxas hsxa hbound
    have hxm_lo : lo ≤ xa + dm / 2 := by linarith
    have hret : |dm / 2| < xt + rt * |xa + dm / 2| := by
      have h1 : |dm / 2| = dm / 2 := abs_of_pos (by linarith)
      have h2 : 0 ≤ rt * |xa + dm / 2| := mul_nonneg hrt (abs_nonneg _)
      rw [h1]
      have : dm / 2 < xt := by
        rw [pow_one] at hbound
        linarith
      linarith
    refine ⟨xa + dm / 2, ?_, ?_⟩
    · rw [bisect_loop, if_pos (Or.inr hret)]
    · have h1 : |xa + dm / 2 - sigma| ≤ dm / 2 := by
        rw [abs_le]
        constructor <;> linarith
      have h2 : dm / 2 < xt := by
        rw [pow_one] at hbound
        linarith
      have h3 : 0 ≤ rt * hi := mul_nonneg hrt hhi0
      linarith
  | succ n ih =>
    intro xa dm hdm hloxa hxahi hxas hsxa hbound
    have hdm2 : 0 < dm / 2 := by linarith
    have hxm_mem : xa + dm / 2 ∈ Set.Icc lo hi :=
      Set.mem_Icc.mpr ⟨by linarith, by linarith⟩
    by_cases hret : f (xa + dm / 2) = 0 ∨ |dm / 2| < xt + rt * |xa + dm / 2|
    · refine ⟨xa + dm / 2, ?_, ?_⟩
      · rw [bisect_loop, if_pos hret]
      · rcases hret with hz | hnear
        · have hx : xa + dm / 2 = sigma := by
            rcases lt_trichotomy (xa + dm / 2) sigma with h | h | h
            · exact absurd hz (ne_of_lt (hfneg _ hxm_mem h))
            · exact h
            · exact absurd hz (ne_of_gt (hfpos _ hxm_mem h))
          rw [hx, sub_self, abs_zero]
          have : 0 ≤ rt * hi := mul_nonneg hrt hhi0
          linarith
        · have h1 : |xa + dm / 2 - sigma| ≤ dm / 2 := by
            rw [abs_le]
            constructor <;> linarith
          have h2 : |dm / 2| = dm / 2 := abs_of_pos hdm2
          have h3 : |xa + dm / 2| ≤ hi := by
            rw [abs_of_nonneg (by linarith : (0:ℝ) ≤ xa + dm / 2)]
            linarith
          have h4 : rt * |xa + dm / 2| ≤ rt * hi :=
            mul_le_mul_of_nonneg_left h3 hrt
          rw [h2] at hnear
          linarith
    · have hstep : bisect_loop f (f lo) xt rt (n+1+1) xa dm =
          bisect_loop f (f lo) xt rt (n+1)
            (if 0 ≤ f (xa + dm / 2) * f lo then xa + dm / 2 else xa) (dm / 2) := by
        rw [bisect_loop, if_neg hret]
      have hbound2 : dm / 2 < xt * 2 ^ (n+1) := by
        rw [pow_succ] at hbound
        linarith
      by_cases hfm : f (xa + dm / 2) ≤ 0
      · have hxm_le : xa + dm / 2 ≤ sigma := by
          by_contra hc
          push_neg at hc
          exact absurd (hfpos _ hxm_mem hc) (not_lt.mpr hfm)
        have hside : 0 ≤ f (xa + dm / 2) * f lo := by
          have h := mul_nonneg (neg_nonneg.mpr hfm) (neg_nonneg.mpr hflo.le)
          rwa [neg_mul_neg] at h
        rw [hstep, if_pos hside]
        exact ih (xa + dm / 2) (dm / 2) hdm2 (by linarith) (by linarith)
          hxm_le (by linarith) hbound2
      · push_neg at hfm
        have hxm_gt : sigma < xa + dm / 2 := by
          by_contra hc
          push_neg at hc
          rcases eq_or_lt_of_le hc with h | h
          · rw [h, hsig] at hfm
            exact lt_irrefl 0 hfm
          · exact absurd (hfneg _ hxm_mem h) (not_lt.mpr hfm.le)
        have hside : ¬ 0 ≤ f (xa + dm / 2) * f lo :=
          not_le.mpr (mul_neg_of_pos_of_neg hfm hflo)
        rw [hstep, if_neg hside]
        exact ih xa (dm / 2) hdm2 hloxa (by linarith) hxas (by linarith) hbound2

theorem scipy_bisect_conv (f : ℝ → ℝ) (lo hi sigma xt rt : ℝ)
    (hmono : StrictMonoOn f (Set.Icc lo hi)) (hsig : f sigma = 0)
    (hlos : lo < sigma) (hshi : sigma < hi) (hlo0 : 0 ≤ lo)
    (hxt : 0 < xt) (hrt : 0 ≤ rt) (hn : hi - lo < xt * 2 ^ 100) :
    ∃ x, scipy_bisect f lo hi xt rt 100 = some x ∧
      |x - sigma| < xt + rt * hi := by
  have hsigm : sigma ∈ Set.Icc lo hi := ⟨hlos.le, hshi.le⟩
  have hflo : f lo < 0 := by
    have h := hmono (Set.mem_Icc.mpr ⟨le_refl lo, le_of_lt (lt_trans hlos hshi)⟩)
      hsigm hlos
    rw [hsig] at h
    exact h
  have hfhi : 0 < f hi := by
    have h := hmono hsigm
      (Set.mem_Icc.mpr ⟨le_of_lt (lt_trans hlos hshi), le_refl hi⟩) hshi
    rw [hsig] at h
    exact h
  rw [scipy_bisect]
  rw [if_neg (not_lt.mpr (le_of_lt (mul_neg_of_neg_of_pos hflo hfhi)))]
  rw [if_neg (ne_of_lt hflo), if_neg (ne_of_gt hfhi)]
  have h := bisect_loop_conv f lo hi sigma xt rt hmono hsig hlos hshi hlo0
    hxt hrt 99 lo (hi - lo) (by linarith) (le_refl lo) (by linarith)
    hlos.le (by linarith) (by norm_num at hn ⊢; exact hn)
  exact h

/-- C2: totality and bracketing of the implied-vol solver: for every input
the result is `none` (FAILURE) or a volatility inside the bracket
`[0.0001, 5.0]` — never negative, never above 5. -/
theorem C2_implied_vol_range (S K T r price : ℝ) (is_call : Bool) :
    black_scholes_implied_vol S K T r price is_call = none ∨
    ∃ x, black_scholes_implied_vol S K T r price is_call = some x ∧
      0.0001 ≤ x ∧ x ≤ 5 := by
  rw [black_scholes_implied_vol, show (5.0:ℝ) = 5 from by norm_num,
    scipy_bisect]
  by_cases h1 : 0 < (bs_price S K T r is_call 0.0001 - price) *
      (bs_price S K T r is_call 5 - price)
  · rw [if_pos h1]
    exact Or.inl rfl
  · rw [if_neg h1]
    by_cases h2 : bs_price S K T r is_call 0.0001 - price = 0
    · rw [if_pos h2]
      exact Or.inr ⟨0.0001, rfl, le_refl _, by norm_num⟩
    · rw [if_neg h2]
      by_cases h3 : bs_price S K T r is_call 5 - price = 0
      · rw [if_pos h3]
        exact Or.inr ⟨5, rfl, by norm_num, le_refl _⟩
      · rw [if_neg h3]
        cases hres : bisect_loop (fun vol => bs_price S K T r is_call vol - price)
            (bs_price S K T r is_call 0.0001 - price) bs_xtol bs_rtol 100 0.0001
            (5 - 0.0001) with
        | none => exact Or.inl rfl
        | some x =>
          have hmem := @bisect_loop_mem
            (fun vol => bs_price S K T r is_call vol - price)
            (bs_price S K T r is_call 0.0001 - price) bs_xtol bs_rtol
            0.0001 5 100 0.0001 (5 - 0.0001) x
            (by norm_num) (le_refl _) (by norm_num) hres
          exact Or.inr ⟨x, rfl, hmem.1.le, hmem.2.le⟩

/-- C1: round-trip of the implied-vol solver: for valid market inputs and a
volatility strictly inside the bracket, pricing at `sigma` and inverting
recovers `sigma` within the solver tolerance `xtol + rtol * 5`. -/
theorem C1_implied_vol_roundtrip (S K T r sigma : ℝ) (is_call : Bool)
    (hS : 0 < S) (hK : 0 < K) (hT : 0 < T)
    (hlo : 0.0001 < sigma) (hhi : sigma < 5) :
    ∃ x, black_scholes_implied_vol S K T r
        (bs_price S K T r is_call sigma) is_call = some x ∧
      |x - sigma| < bs_xtol + bs_rtol * 5 := by
  rw [black_scholes_implied_vol, show (5.0:ℝ) = 5 from by norm_num]
  have hmono0 := @bs_price_strictMonoOn S K T r is_call hS hK hT
    0.0001 5 (by norm_num)
  have hmono : StrictMonoOn
      (fun vol => bs_price S K T r is_call vol - bs_price S K T r is_call sigma)
      (Set.Icc 0.0001 5) := fun a ha b hb hab =>
    sub_lt_sub_right (hmono0 ha hb hab) _
  have h := scipy_bisect_conv
    (fun vol => bs_price S K T r is_call vol - bs_price S K T r is_call sigma)
    0.0001 5 sigma bs_xtol bs_rtol hmono (sub_self _) hlo hhi (by norm_num)
    (by rw [bs_xtol]; norm_num) (by rw [bs_rtol]; positivity)
    (by rw [bs_xtol]; norm_num)
  exact h

/-- C1 witness: a concrete round trip at `S = K = 1`, `T = 1`, `r = 0`,
`sigma = 1`, call. -/
theorem C1_implied_vol_roundtrip_witness :
    ∃ x, black_scholes_implied_vol 1 1 1 0 (bs_price 1 1 1 0 true 1) true =
        some x ∧ |x - 1| < bs_xtol + bs_rtol * 5 :=
  C1_implied_vol_roundtrip 1 1 1 0 1 true (by norm_num) (by norm_num)
    (by norm_num) (by norm_num) (by norm_num)

/-- A stored quote point (volatility_surface.py lines 9-14); the wall-clock
timestamp field is not modelled. -/
structure QuotePoint where
  strike : ℝ
  expiry : ℤ
  implied_vol : ℝ

/-- `VolatilitySurface.update_quote` (volatility_surface.py lines 76-138),
as the admission decision for one quote: `none` means the quote is skipped,
`some qp` means `qp` is stored into `self.quotes`.  The implied-vol solver is
passed as the parameter `solverF` (the class calls
`self.black_scholes_implied_vol`); `days_to_expiry` stands for
`(expiry - date.today()).days` and `spot_price = 0` models a falsy spot. -/
noncomputable def update_quote (solverF : ℝ → ℝ → ℝ → ℝ → ℝ → Bool → Option ℝ)
    (spot_price strike : ℝ) (days_to_expiry : ℤ) (is_call : Bool)
    (bid ask : ℝ) : Option QuotePoint :=
  if bid ≤ 0 ∨ ask ≤ 0 then none
  else if (ask - bid) / ((ask + bid) / 2) > 0.15 then none
  else if spot_price = 0 then none
  else if ((days_to_expiry : ℝ) / 365) ≤ 0 then none
  else
    match solverF spot_price strike ((days_to_expiry : ℝ) / 365) 0
        ((bid + ask) / 2) is_call with
    | none => none
    | some implied_vol =>
      if implied_vol < 0.05 ∨ implied_vol > 2.0 then none
      else some ⟨strike, days_to_expiry, implied_vol⟩

end VolatilitySurface

/-- C3: Rule 1 of the trade classifier: a trade at the ask with a strict
decrease of the ask size is classified BUY; symmetrically a trade at the bid
with a strict decrease of the bid size (when the ask-match condition did not
fire) is classified SELL; this rule fires before any other rule. -/
theorem C3_classify_rule1 (trade_price bid ask next_bid next_ask : ℚ)
    (bid_size ask_size next_bid_size next_ask_size : ℤ) :
    (trade_price = ask ∧ next_ask_size < ask_size →
      OptionChainService.classify_trade trade_price bid ask next_bid next_ask
        bid_size ask_size next_bid_size next_ask_size = "BUY") ∧
    (trade_price = bid ∧ next_bid_size < bid_size ∧
        ¬(trade_price = ask ∧ next_ask_size < ask_size) →
      OptionChainService.classify_trade trade_price bid ask next_bid next_ask
        bid_size ask_size next_bid_size next_ask_size = "SELL") := by
  constructor
  · rintro ⟨hp, hs⟩
    simp only [OptionChainService.classify_trade, OptionChainService.classify_step1]
    rw [if_pos ⟨hp, hs⟩]
    rfl
  · rintro ⟨hp, hs, hnot⟩
    simp only [OptionChainService.classify_trade, OptionChainService.classify_step1]
    rw [if_neg hnot, if_pos ⟨hp, hs⟩]
    rfl

/-- C3 witness: rule 1 at concrete inputs, the BUY case and the SELL case. -/
theorem C3_classify_rule1_witness :
    OptionChainService.classify_trade 2 1 2 1 2 1 2 1 1 = "BUY" ∧
    OptionChainService.classify_trade 1 1 2 1 2 2 1 1 1 = "SELL" :=
  ⟨(C3_classify_rule1 2 1 2 1 2 1 2 1 1).1 ⟨rfl, by decide⟩,
   (C3_classify_rule1 1 1 2 1 2 2 1 1 1).2 ⟨rfl, by decide, by decide⟩⟩

/-- C4 counterexample: at trade price equal to the ask (so `price ≥ ask`) with
no size change and no quote movement, rules 1-3 produce no classification, yet
the classifier returns UNKNOWN, not BUY: the claim `price ≥ ask ⇒ BUY` is
false; step 4 of the code requires `price > ask` strictly. -/
theorem C4_counterexample :
    OptionChainService.classify_step1 2 1 2 1 1 1 1 = none ∧
    OptionChainService.classify_step2 1 2 1 2 = none ∧
    OptionChainService.classify_step3 2 1 2 1 2 1 1 1 1 = none ∧
    (2 : ℚ) ≥ 2 ∧
    OptionChainService.classify_trade 2 1 2 1 2 1 1 1 1 = "UNKNOWN" := by
  refine ⟨?_, ?_, ?_, le_refl _, ?_⟩ <;>
    norm_num [OptionChainService.classify_trade, OptionChainService.classify_step1,
      OptionChainService.classify_step2, OptionChainService.classify_step3,
      OptionChainService.classify_step4, OptionChainService.classify_step5,
      Option.orElse]

/-- C4 amended: when rules 1-3 produce no classification, a trade price
strictly above the ask yields BUY, and a trade price strictly below the bid
(with the above-ask branch not firing) yields SELL. -/
theorem C4_classify_rule4 (trade_price bid ask next_bid next_ask : ℚ)
    (bid_size ask_size next_bid_size next_ask_size : ℤ)
    (h1 : OptionChainService.classify_step1 trade_price bid ask
      bid_size ask_size next_bid_size next_ask_size = none)
    (h2 : OptionChainService.classify_step2 bid ask next_bid next_ask = none)
    (h3 : OptionChainService.classify_step3 trade_price bid ask next_bid next_ask
      bid_size ask_size next_bid_size next_ask_size = none) :
    (ask < trade_price →
      OptionChainService.classify_trade trade_price bid ask next_bid next_ask
        bid_size ask_size next_bid_size next_ask_size = "BUY") ∧
    (trade_price < bid → ¬(ask < trade_price) →
      OptionChainService.classify_trade trade_price bid ask next_bid next_ask
        bid_size ask_size next_bid_size next_ask_size = "SELL") := by
  constructor
  · intro hgt
    simp only [OptionChainService.classify_trade, h1, h2, h3, Option.none_orElse,
      OptionChainService.classify_step4]
    rw [if_pos hgt]
    rfl
  · intro hlt hngt
    simp only [OptionChainService.classify_trade, h1, h2, h3, Option.none_orElse,
      OptionChainService.classify_step4]
    rw [if_neg hngt, if_pos hlt]
    rfl

/-- C4 witness: rule 4 at concrete inputs, above the ask and below the bid. -/
theorem C4_classify_rule4_witness :
    OptionChainService.classify_trade 3 1 2 1 2 1 1 1 1 = "BUY" ∧
    OptionChainService.classify_trade (1/2) 1 2 1 2 1 1 1 1 = "SELL" := by
  have hstep1 : OptionChainService.classify_step1 3 1 2 1 1 1 1 = none := by
    norm_num [OptionChainService.classify_step1]
  have hstep2 : OptionChainService.classify_step2 1 2 1 2 = none := by
    norm_num [OptionChainService.classify_step2]
  have hstep3 : OptionChainService.classify_step3 3 1 2 1 2 1 1 1 1 = none := by
    norm_num [OptionChainService.classify_step3]
  have hstep1b : OptionChainService.classify_step1 (1/2) 1 2 1 1 1 1 = none := by
    norm_num [OptionChainService.classify_step1]
  have hstep3b : OptionChainService.classify_step3 (1/2) 1 2 1 2 1 1 1 1 = none := by
    norm_num [OptionChainService.classify_step3]
  exact ⟨(C4_classify_rule4 3 1 2 1 2 1 1 1 1 hstep1 hstep2 hstep3).1 (by norm_num),
    (C4_classify_rule4 (1/2) 1 2 1 2 1 1 1 1 hstep1b hstep2 hstep3b).2
      (by norm_num) (by norm_num)⟩

/-- C5: when no quote exists on either side, the quote context is empty on
both sides and the stream classifier returns UNKNOWN for every trade price
and size. -/
theorem C5_no_quotes_unknown (price trade_time : ℚ) (size : ℤ) :
    StreamManager.get_quote_context [] trade_time = (none, none) ∧
    StreamManager.classify_trade price size none none = "UNKNOWN" :=
  ⟨by simp [StreamManager.get_quote_context], rfl⟩

/-- C6: whenever the input observations span fewer than 5 distinct strikes,
`get_svi_slice` returns null, for every optimizer core: either the raw length
guard of `get_svi_slice` or the strike-count guard of `fit_svi_slice` fires. -/
theorem C6_min_distinct_strikes
    (optCore : List ℚ → List ℚ → ℚ → Option OptionGreeks.SVIParams)
    (trades : List (ℚ × ℚ × ℚ)) (spot : ℚ)
    (h : (trades.map (fun t => t.1)).toFinset.card < 5) :
    OptionGreeks.get_svi_slice optCore trades spot = none := by
  rw [OptionGreeks.get_svi_slice]
  by_cases hlen : trades.length < 5
  · rw [if_pos hlen]
  · rw [if_neg hlen, OptionGreeks.fit_svi_slice,
      if_pos (by rw [OptionGreeks.svi_strikes_length]; exact h)]

/-- C6 witness: five observations all at the same strike (one distinct
strike) yield null even for an optimizer core that always succeeds. -/
theorem C6_min_distinct_strikes_witness :
    (([((1 : ℚ), (1 : ℚ), (0 : ℚ)), (1, 2, 0), (1, 3, 0), (1, 4, 0),
        (1, 5, 0)].map (fun t => t.1)).toFinset.card < 5) ∧
    OptionGreeks.get_svi_slice (fun _ _ _ => some ⟨0, 0, 0, 0, 0⟩)
      [((1 : ℚ), (1 : ℚ), (0 : ℚ)), (1, 2, 0), (1, 3, 0), (1, 4, 0), (1, 5, 0)]
      100 = none := by
  have h : (([((1 : ℚ), (1 : ℚ), (0 : ℚ)), (1, 2, 0), (1, 3, 0), (1, 4, 0),
      (1, 5, 0)].map (fun t => t.1)).toFinset.card < 5) := by
    simp
  exact ⟨h, C6_min_distinct_strikes _ _ 100 h⟩

/-- C7 counterexample: three observations at the same strike with implied
vols 1, 2, 6 are aggregated to the single value 3, their arithmetic mean;
the median of the observations is 2, and 3 ≠ 2, so the pre-aggregation is
not by median. -/
theorem C7_counterexample :
    OptionGreeks.svi_strikes [((1 : ℚ), (1 : ℚ), (0 : ℚ)), (1, 2, 0), (1, 6, 0)] = [1] ∧
    OptionGreeks.svi_ivs [((1 : ℚ), (1 : ℚ), (0 : ℚ)), (1, 2, 0), (1, 6, 0)] = [3] ∧
    OptionGreeks.spec_median [1, 2, 6] = 2 ∧ (3 : ℚ) ≠ 2 := by
  have hsorted : List.mergeSort [(1 : ℚ), 2, 6] (fun a b => a ≤ b) = [1, 2, 6] :=
    List.mergeSort_of_sorted (by simp [List.pairwise_cons]; norm_num)
  refine ⟨?_, ?_, ?_, by norm_num⟩
  · norm_num [OptionGreeks.svi_strikes, OptionGreeks.sorted_items,
      OptionGreeks.unique_trades, OptionGreeks.addObs]
  · norm_num [OptionGreeks.svi_ivs, OptionGreeks.sorted_items,
      OptionGreeks.unique_trades, OptionGreeks.addObs, OptionGreeks.list_mean]
  · rw [OptionGreeks.spec_median, hsorted]
    norm_num

/-- C7 amended: multiple observations at the same strike are pre-aggregated,
before fitting, to a single value equal to their arithmetic mean (sum divided
by count), not their median: for every input, each aggregated implied vol is
the mean of the observations at its strike. -/
theorem C7_duplicate_strike_mean (trades : List (ℚ × ℚ × ℚ)) :
    OptionGreeks.svi_ivs trades = (OptionGreeks.svi_strikes trades).map
      (fun k => OptionGreeks.list_mean
        ((trades.filter (fun t => t.1 = k)).map (fun t => t.2.1))) := by
  rw [OptionGreeks.svi_ivs, OptionGreeks.svi_strikes, List.map_map]
  apply List.map_congr_left
  intro p hp
  have hmem : p ∈ OptionGreeks.unique_trades trades := by
    rw [OptionGreeks.sorted_items] at hp
    exact List.mem_mergeSort.mp hp
  have hobs := OptionGreeks.mem_unique_trades_obs trades p hmem
  simp only [Function.comp]
  rw [← hobs]

/-- C8: the initial parameter vector handed to the bounded optimizer by
`fit_svi_slice` is the literal constant `[-0.2, 0.2, 0.1, 0.1, 0.01]`,
identical for all inputs: it is not a function of the binned input data (the
binned means computed at lines 68-81 of option_greeks.py are never used). -/
theorem C8_init_guess_constant (strikes ivs strikes₂ ivs₂ : List ℝ) (spot spot₂ : ℝ) :
    OptionGreeks.fit_svi_init_guess strikes ivs spot = [-0.2, 0.2, 0.1, 0.1, 0.01] ∧
    OptionGreeks.fit_svi_init_guess strikes ivs spot =
      OptionGreeks.fit_svi_init_guess strikes₂ ivs₂ spot₂ :=
  ⟨rfl, rfl⟩

/-- C9 counterexample: a crossed quote (`bid = 2 > ask = 1`) passes every
admission check of `update_quote` — positivity, spread filter (the relative
spread of a crossed quote is negative, so the `> 0.15` filter passes), spot
and expiry guards — and is stored once the solver returns an in-range
implied vol: quotes with `ask < bid` are not discarded. -/
theorem C9_counterexample :
    VolatilitySurface.update_quote (fun _ _ _ _ _ _ => some 1) 100 50 30 true
        2 1 = some ⟨50, 30, 1⟩ ∧ (1 : ℝ) < 2 := by
  refine ⟨?_, by norm_num⟩
  rw [VolatilitySurface.update_quote]
  rw [if_neg (by norm_num), if_neg (by norm_num), if_neg (by norm_num),
    if_neg (by norm_num)]
  norm_num

/-- C9 amended: every quote stored by `update_quote` has positive bid,
positive ask and relative spread at most 0.15; the code does not compare ask
against bid, so crossed quotes with `ask < bid` are not rejected by the
admission checks. -/
theorem C9_quote_admission
    (solverF : ℝ → ℝ → ℝ → ℝ → ℝ → Bool → Option ℝ)
    (spot_price strike : ℝ) (days_to_expiry : ℤ) (is_call : Bool)
    (bid ask : ℝ) (qp : VolatilitySurface.QuotePoint)
    (h : VolatilitySurface.update_quote solverF spot_price strike
      days_to_expiry is_call bid ask = some qp) :
    0 < bid ∧ 0 < ask ∧ (ask - bid) / ((ask + bid) / 2) ≤ 0.15 := by
  rw [VolatilitySurface.update_quote] at h
  by_cases h1 : bid ≤ 0 ∨ ask ≤ 0
  · rw [if_pos h1] at h
    exact absurd h (by simp)
  rw [if_neg h1] at h
  by_cases h2 : (ask - bid) / ((ask + bid) / 2) > 0.15
  · rw [if_pos h2] at h
    exact absurd h (by simp)
  push_neg at h1
  exact ⟨h1.1, h1.2, not_lt.mp h2⟩

/-- C9 witness: the admitted quote `bid = 1`, `ask = 1.1` satisfies the
admission conditions. -/
theorem C9_quote_admission_witness :
    0 < (1 : ℝ) ∧ 0 < (11/10 : ℝ) ∧
      ((11/10 : ℝ) - 1) / (((11/10 : ℝ) + 1) / 2) ≤ 0.15 :=
  C9_quote_admission (fun _ _ _ _ _ _ => some 1) 100 50 30 true 1 (11/10)
    ⟨50, 30, 1⟩ (by
      rw [VolatilitySurface.update_quote]
      rw [if_neg (by norm_num), if_neg (by norm_num), if_neg (by norm_num),
        if_neg (by norm_num)]
      norm_num)

/-- C10: the butterfly penalty is nonnegative and vanishes exactly when the
density term `g` is nonnegative; the calendar penalty is nonnegative and
vanishes exactly when the current slice's total variance dominates the
previous slice's: the penalties never reward an arbitrage violation. -/
theorem C10_arbitrage_penalties (chi chi1 chi2 : OptionGreeks.SVIChi) (k k' : ℝ) :
    0 ≤ OptionGreeks.butterfly_arbitrage chi k ∧
    (OptionGreeks.butterfly_arbitrage chi k = 0 ↔ 0 ≤ OptionGreeks.svi_g chi k) ∧
    0 ≤ OptionGreeks.calendar_arbitrage chi1 chi2 k' ∧
    (OptionGreeks.calendar_arbitrage chi1 chi2 k' = 0 ↔
      OptionGreeks.svi_w chi2 k' ≤ OptionGreeks.svi_w chi1 k') := by
  refine ⟨?_, ?_, le_max_left 0 _, ?_⟩
  · exact neg_nonneg.mpr (min_le_left 0 _)
  · rw [OptionGreeks.butterfly_arbitrage, neg_eq_zero, min_eq_left_iff]
  · rw [OptionGreeks.calendar_arbitrage, max_eq_left_iff, sub_nonpos]
